import Mathlib

/-!
Verification development for the `freq-motif-fastq` tool
(`src/freq-motif-fastq/src/main.rs`).

Rust strings are modelled as `List Char` (written `K`); the byte-level
behaviour of the one byte-index slice in the source (`&header[1..]`) is
captured through `Char.utf8Size` of the first character.  Rust `HashMap`s
are modelled as association lists with distinct keys; `f64` values are
modelled by exact rationals, except in the final percentage table where a
dedicated carrier `FVal` records the IEEE special values (`NaN`, `inf`)
that the `usize as f64` divisions of `main` can produce.  Rust panics
(`expect`, out-of-bounds slicing, checked-subtraction overflow) are
modelled with `Except PanicE`.
-/

set_option autoImplicit false

namespace FreqMotif

/-- A Rust string, modelled as its list of characters. -/
abbrev K := List Char

instance {ε α : Type} [DecidableEq ε] [DecidableEq α] : DecidableEq (Except ε α)
  | .error e, .error f =>
    if h : e = f then .isTrue (congrArg _ h)
    else .isFalse (fun c => h (Except.error.inj c))
  | .error _, .ok _ => .isFalse Except.noConfusion
  | .ok _, .error _ => .isFalse Except.noConfusion
  | .ok a, .ok b =>
    if h : a = b then .isTrue (congrArg _ h)
    else .isFalse (fun c => h (Except.ok.inj c))

/-- Rust panics (`expect` failures, slice errors, arithmetic overflow). -/
inductive PanicE where
  | panic (msg : String) : PanicE
deriving DecidableEq

/-! ### Association-list maps (model of `std::collections::HashMap`) -/

/-- `HashMap::get`. -/
def lookupA {β : Type} : List (K × β) → K → Option β
  | [], _ => none
  | p :: rest, k => if p.1 = k then some p.2 else lookupA rest k

/-- Lookup with default `0`, for counting maps. -/
def lookupD (m : List (K × Nat)) (k : K) : Nat :=
  (lookupA m k).getD 0

/-- `HashMap::insert` (replaces the value of an existing key). -/
def replaceA {β : Type} : List (K × β) → K → β → List (K × β)
  | [], k, v => [(k, v)]
  | p :: rest, k, v => if p.1 = k then (k, v) :: rest else p :: replaceA rest k v

/-- `*map.entry(k).or_insert(0) += v`. -/
def addA : List (K × Nat) → K → Nat → List (K × Nat)
  | [], k, v => [(k, v)]
  | p :: rest, k, v => if p.1 = k then (p.1, p.2 + v) :: rest else p :: addA rest k v

/-- `*map.entry(k).or_insert(0) += 1`. -/
def incrA (m : List (K × Nat)) (k : K) : List (K × Nat) :=
  addA m k 1

/-! ### Motif frequency engine (`process_reads_and_write_fasta`, lines 205-236) -/

/-- `&sequence[i..i+k]` (for single-byte characters). -/
def slice (s : K) (i k : Nat) : K :=
  (s.drop i).take k

/-- One iteration of the `for i in 0..length` loop of the source:
conditionally count the dinucleotide and trinucleotide windows at `i`. -/
def motifStep (s : K) (m : List (K × Nat)) (i : Nat) : List (K × Nat) :=
  let m1 := if i + 2 ≤ s.length then incrA m (slice s i 2) else m
  if i + 3 ≤ s.length then incrA m1 (slice s i 3) else m1

/-- The per-read `motif_frequencies` map built by the sliding-window loop. -/
def motif_frequencies (s : K) : List (K × Nat) :=
  (List.range s.length).foldl (motifStep s) []

/-- The `proportion` computed for one entry of `motif_frequencies`:
count over `total_dinucleotides = length - 1` for 2-character motifs,
count over `total_trinucleotides = length - 2` otherwise.  Exact rational
division, written with `mkRat` (equal to `p.2 / den`, see
`proportion_eq_div`). -/
def proportion (s : K) (p : K × Nat) : ℚ :=
  if p.1.length = 2 then mkRat p.2 (s.length - 1)
  else mkRat p.2 (s.length - 2)

/-- The `for (motif, count) in motif_frequencies` loop: one vote into
`motif_counts` for every motif whose proportion strictly exceeds
`min_proportion`. -/
def voteUpdate (mc : List (K × Nat)) (s : K) (min_proportion : ℚ) :
    List (K × Nat) :=
  (motif_frequencies s).foldl
    (fun acc p => if min_proportion < proportion s p then incrA acc p.1 else acc)
    mc

/-! ### Record reader loop (`process_reads_and_write_fasta`, lines 170-244) -/

/-- The mutable state of `process_reads_and_write_fasta`. -/
structure PState where
  motif_counts : List (K × Nat)
  total_reads : Nat
  read_lengths : List (K × Nat)
  fasta : List K
deriving DecidableEq

/-- The body executed for one valid read: increment `total_reads`, write the
FASTA pair, record the length, and run the motif vote loop. -/
def stepRead (min_proportion : ℚ) (st : PState) (read_id : K) (s : K) : PState :=
  { motif_counts := voteUpdate st.motif_counts s min_proportion
    total_reads := st.total_reads + 1
    read_lengths := replaceA st.read_lengths read_id s.length
    fasta := st.fasta ++ ['>' :: read_id, s] }

/-- The `while let Some(Ok(header)) = lines.next()` loop.  Each iteration
takes the header and sequence lines; `continue` for a sequence of length
`< 2` skips the two trailing `lines.next()` calls, so only those two lines
are consumed; a processed read additionally consumes the separator and
quality lines.  `&header[1..]` panics when the header is empty (byte index
out of bounds) or its first character is not a single byte (not a char
boundary). -/
def processLoop (max_reads : Nat) (min_proportion : ℚ) :
    List K → PState → Except PanicE PState
  | [], st => .ok st
  | [_], st => .ok st
  | h :: s :: rest, st =>
    if max_reads ≤ st.total_reads then .ok st
    else if s.length < 2 then
      processLoop max_reads min_proportion rest st
    else
      match h with
      | [] => .error (.panic "byte index 1 is out of bounds")
      | c :: read_id =>
        if c.utf8Size = 1 then
          let st2 := stepRead min_proportion st read_id s
          match rest with
          | [] => .ok st2
          | [_] => .ok st2
          | _ :: _ :: rest2 => processLoop max_reads min_proportion rest2 st2
        else .error (.panic "byte index 1 is not a char boundary")

/-- `process_reads_and_write_fasta`: skip `4 * skip_reads` lines, then run
the record loop from the empty state. -/
def process_reads_and_write_fasta (lines : List K) (max_reads : Nat)
    (min_proportion : ℚ) (skip_reads : Nat) : Except PanicE PState :=
  processLoop max_reads min_proportion (lines.drop (4 * skip_reads))
    { motif_counts := [], total_reads := 0, read_lengths := [], fasta := [] }

/-! ### Mask merge aggregator (`parse_dust_output`, lines 248-278) -/

/-- `str::split_whitespace` (auxiliary accumulator form). -/
def splitWsAux : List Char → List Char → List K
  | [], acc => if acc = [] then [] else [acc.reverse]
  | c :: rest, acc =>
    if c.isWhitespace then
      if acc = [] then splitWsAux rest [] else acc.reverse :: splitWsAux rest []
    else splitWsAux rest (c :: acc)

/-- `line.split_whitespace().collect::<Vec<_>>()`. -/
def splitWs (l : K) : List K :=
  splitWsAux l []

/-- `str::parse::<usize>()`: an optional leading `+` sign followed by at
least one decimal digit. -/
def parseUsize (s : K) : Option Nat :=
  let t := match s with
    | '+' :: rest => rest
    | _ => s
  if t = [] then none
  else if t.all Char.isDigit then
    some (t.foldl (fun a c => a * 10 + (c.toNat - 48)) 0)
  else none

/-- The first loop of `parse_dust_output`: accumulate `end - start + 1` into
`masked_bases` for every 3-token line; other lines are skipped; a
non-integer offset is a fatal `expect` panic and `end - start` underflows
(usize checked subtraction) when `end < start`. -/
def collectMasked : List K → List (K × Nat) → Except PanicE (List (K × Nat))
  | [], mb => .ok mb
  | l :: rest, mb =>
    match splitWs l with
    | [a, b, c] =>
      match parseUsize b with
      | none => .error (.panic "Invalid start position")
      | some s =>
        match parseUsize c with
        | none => .error (.panic "Invalid end position")
        | some e =>
          if e < s then .error (.panic "attempt to subtract with overflow")
          else collectMasked rest (addA mb a (e - s + 1))
    | _ => collectMasked rest mb

/-- `parse_dust_output`: build `masked_bases`, then count the reads whose
masked proportion strictly exceeds `min_proportion`; report identifiers
absent from `read_lengths` are ignored.  The `total_length = 0` branch
reflects IEEE `f64`: `masked / 0.0 = +inf` (accumulated masked totals are
always positive), which exceeds any finite threshold; the pipeline never
records a zero length.  Otherwise the comparison is the exact rational
`masked / total_length > min_proportion`. -/
def parse_dust_output (dust_lines : List K) (read_lengths : List (K × Nat))
    (min_proportion : ℚ) : Except PanicE Nat :=
  match collectMasked dust_lines [] with
  | .error e => .error e
  | .ok mb =>
    .ok ((mb.filter fun p =>
      match lookupA read_lengths p.1 with
      | some total_length =>
        if total_length = 0 then true
        else decide (min_proportion < mkRat p.2 total_length)
      | none => false).length)

/-! ### Finalization (`main`, lines 83-95) -/

/-- Model of an `f64` produced by `usize as f64` casts, division and the
multiplication by `100.0` in `main`: either an exact finite rational or
one of the IEEE special values that those operations can produce.
(Rounding of finite values is not modelled; none of the claims depends on
it.  A negative value never arises because every operand is a `usize`
cast.) -/
inductive FVal where
  | nan : FVal
  | inf : FVal
  | fin : ℚ → FVal
deriving DecidableEq

/-- `(count as f64 / total_reads as f64) * 100.0` with IEEE semantics for
the zero denominator: `0.0 / 0.0 = NaN` and `c / 0.0 = +inf` for `c > 0`
(and `NaN * 100.0 = NaN`, `inf * 100.0 = inf`); otherwise the exact
rational `count * 100 / total`. -/
def percentOf (count total : Nat) : FVal :=
  if total = 0 then (if count = 0 then .nan else .inf)
  else .fin (mkRat (count * 100) total)

/-- The string literal `"LowComplexity"`. -/
def lowComplexityKey : K :=
  "LowComplexity".toList

/-- `initialize_all_motifs`: every 2- and 3-character motif over the bases
`A`, `T`, `G`, `C`, each mapped to `0.0`. -/
def initialize_all_motifs : List (K × FVal) :=
  let bases : List K := [['A'], ['T'], ['G'], ['C']]
  let m1 := bases.foldl
    (fun acc b1 => bases.foldl
      (fun acc b2 => replaceA acc (b1 ++ b2) (.fin 0)) acc) []
  bases.foldl
    (fun acc b1 => bases.foldl
      (fun acc b2 => bases.foldl
        (fun acc b3 => replaceA acc (b1 ++ b2 ++ b3) (.fin 0)) acc) acc) m1

/-- The finalization of `main` (lines 83-91): start from
`initialize_all_motifs`, overwrite each voted motif with its population
percentage, then insert the low-complexity percentage. -/
def finalizeTable (motif_counts : List (K × Nat)) (total_reads : Nat)
    (low_complexity_reads : Nat) : List (K × FVal) :=
  let props := motif_counts.foldl
    (fun acc p => replaceA acc p.1 (percentOf p.2 total_reads))
    initialize_all_motifs
  replaceA props lowComplexityKey (percentOf low_complexity_reads total_reads)

/-- The core pipeline of `main`: read/analyze the records, merge the
externally produced masking report, and build the (not yet sorted) result
table.  The masking report lines stand in for the output of the external
`sdust` invocation. -/
def mainTable (lines : List K) (max_reads : Nat) (min_proportion : ℚ)
    (skip_reads : Nat) (dust_lines : List K) : Except PanicE (List (K × FVal)) :=
  match process_reads_and_write_fasta lines max_reads min_proportion skip_reads with
  | .error e => .error e
  | .ok st =>
    match parse_dust_output dust_lines st.read_lengths min_proportion with
    | .error e => .error e
    | .ok lc => .ok (finalizeTable st.motif_counts st.total_reads lc)

/-! ### Specification-side notions used in the theorem statements -/

/-- All sliding windows of width `k` (step 1) of a sequence. -/
def windowsOf (k : Nat) (s : K) : List K :=
  (List.range (s.length + 1 - k)).map (fun i => slice s i k)

/-- The number of occurrences of a motif among the sliding windows of its
own width. -/
def windowCount (s m : K) : Nat :=
  (windowsOf m.length s).count m

/-- The within-read proportion of a motif stated as in the specification:
occurrence count over `L - 1` windows for a dinucleotide, over `L - 2` for
a trinucleotide. -/
def windowProp (s m : K) : ℚ :=
  if m.length = 2 then (windowCount s m : ℚ) / ((s.length - 1 : Nat) : ℚ)
  else (windowCount s m : ℚ) / ((s.length - 2 : Nat) : ℚ)

/-- The sum of the counts of all motifs of width `k` in a frequency map. -/
def sumLen (k : Nat) (m : List (K × Nat)) : Nat :=
  ((m.filter fun p => p.1.length = k).map Prod.snd).sum

/-- The identifier/interval-length pair described by one masking-report
line, when the line has exactly three tokens with integer offsets. -/
def tripleOf (l : K) : Option (K × Nat) :=
  match splitWs l with
  | [a, b, c] =>
    match parseUsize b, parseUsize c with
    | some s, some e => some (a, e - s + 1)
    | _, _ => none
  | _ => none

/-- All identifier/interval-length pairs of a masking report. -/
def triplesOf (lines : List K) : List (K × Nat) :=
  lines.filterMap tripleOf

/-- Total masked length attributed to one read identifier: the sum of the
interval lengths of all its report lines (no de-overlapping). -/
def maskedOf (lines : List K) (n : K) : Nat :=
  (((triplesOf lines).filter fun p => p.1 = n).map Prod.snd).sum

/-- A masking-report line that does not abort the run: either it does not
have exactly three tokens (it is skipped), or its offsets are integers
with `start ≤ end`. -/
def wfLine (l : K) : Bool :=
  match splitWs l with
  | [_, b, c] =>
    match parseUsize b, parseUsize c with
    | some s, some e => decide (s ≤ e)
    | _, _ => false
  | _ => true

/-- Specification-side low-complexity classification of one read
identifier: it has a recorded length and its total masked proportion
strictly exceeds the threshold. -/
def isLC (tbl : List (K × Nat)) (min_proportion : ℚ) (lines : List K) (n : K) :
    Bool :=
  match lookupA tbl n with
  | some L =>
    if L = 0 then true
    else decide (min_proportion < (maskedOf lines n : ℚ) / (L : ℚ))
  | none => false

/-- The four nucleotide characters. -/
def atgcChars : List Char :=
  ['A', 'T', 'G', 'C']

/-! ### Association-list lemmas -/

theorem lookupA_eq_none {β : Type} (m : List (K × β)) (k : K) :
    lookupA m k = none ↔ k ∉ m.map Prod.fst := by
  induction m with
  | nil => simp [lookupA]
  | cons p rest ih =>
    simp only [lookupA, List.map_cons, List.mem_cons]
    by_cases h : p.1 = k
    · simp only [if_pos h, h]
      constructor
      · intro hc
        cases hc
      · intro hc
        exact absurd (Or.inl trivial) hc
    · simp only [if_neg h, ih]
      constructor
      · intro hc hv
        rcases hv with hv | hv
        · exact h hv.symm
        · exact hc hv
      · intro hc hv
        exact hc (Or.inr hv)

theorem lookupA_mem {β : Type} {m : List (K × β)} {p : K × β}
    (hnd : (m.map Prod.fst).Nodup) (hp : p ∈ m) :
    lookupA m p.1 = some p.2 := by
  induction m with
  | nil => cases hp
  | cons q rest ih =>
    rcases List.mem_cons.mp hp with h | h
    · subst h
      simp [lookupA]
    · have hne : q.1 ≠ p.1 := by
        intro he
        exact (List.nodup_cons.mp hnd).1 (he ▸ List.mem_map_of_mem Prod.fst h)
      simp only [lookupA, if_neg hne]
      exact ih (List.nodup_cons.mp hnd).2 h

theorem lookupD_addA (m : List (K × Nat)) (k k' : K) (v : Nat) :
    lookupD (addA m k v) k' = lookupD m k' + if k = k' then v else 0 := by
  induction m with
  | nil =>
    by_cases h : k = k' <;> simp [addA, lookupD, lookupA, h]
  | cons p rest ih =>
    by_cases hp : p.1 = k
    · subst hp
      by_cases h : p.1 = k' <;>
        simp [addA, lookupD, lookupA, h]
    · by_cases h : p.1 = k'
      · have hkk : k ≠ k' := fun he => hp (h.trans he.symm)
        simp [addA, lookupD, lookupA, hp, h, hkk, Ne.symm hkk]
      · simpa [addA, lookupD, lookupA, hp, h] using ih

theorem keys_addA (m : List (K × Nat)) (k : K) (v : Nat) :
    (addA m k v).map Prod.fst =
      if k ∈ m.map Prod.fst then m.map Prod.fst else m.map Prod.fst ++ [k] := by
  induction m with
  | nil => simp [addA]
  | cons p rest ih =>
    by_cases hp : p.1 = k
    · simp [addA, hp]
    · by_cases hm : k ∈ rest.map Prod.fst <;>
        simp [addA, hp, hm, ih, Ne.symm hp]

theorem nodup_keys_addA {m : List (K × Nat)} (k : K) (v : Nat)
    (hnd : (m.map Prod.fst).Nodup) : ((addA m k v).map Prod.fst).Nodup := by
  rw [keys_addA]
  by_cases hm : k ∈ m.map Prod.fst
  · simpa [hm] using hnd
  · rw [if_neg hm, List.nodup_append]
    refine ⟨hnd, List.nodup_singleton _, ?_⟩
    intro a ha hb
    rw [List.mem_singleton] at hb
    exact hm (hb ▸ ha)

theorem mem_addA {m : List (K × Nat)} {k : K} {v : Nat} {p : K × Nat}
    (hp : p ∈ addA m k v) : p ∈ m ∨ p.1 = k := by
  induction m with
  | nil =>
    simp [addA] at hp
    simp [hp]
  | cons q rest ih =>
    by_cases hq : q.1 = k
    · simp only [addA, if_pos hq] at hp
      rcases List.mem_cons.mp hp with h | h
      · right
        rw [h]
        exact hq
      · left
        exact List.mem_cons_of_mem _ h
    · simp only [addA, if_neg hq] at hp
      rcases List.mem_cons.mp hp with h | h
      · left
        rw [h]
        exact List.mem_cons_self _ _
      · rcases ih h with h2 | h2
        · left
          exact List.mem_cons_of_mem _ h2
        · right
          exact h2

theorem pos_addA {m : List (K × Nat)} {k : K} {v : Nat}
    (hm : ∀ p ∈ m, 0 < p.2) (hv : 0 < v) :
    ∀ p ∈ addA m k v, 0 < p.2 := by
  induction m with
  | nil =>
    intro p hp
    simp [addA] at hp
    simp [hp, hv]
  | cons q rest ih =>
    intro p hp
    by_cases hq : q.1 = k
    · simp only [addA, if_pos hq] at hp
      rcases List.mem_cons.mp hp with h | h
      · rw [h]
        exact Nat.lt_of_lt_of_le (hm q (List.mem_cons_self _ _)) (Nat.le_add_right _ _)
      · exact hm p (List.mem_cons_of_mem _ h)
    · simp only [addA, if_neg hq] at hp
      rcases List.mem_cons.mp hp with h | h
      · rw [h]
        exact hm q (List.mem_cons_self _ _)
      · exact ih (fun r hr => hm r (List.mem_cons_of_mem _ hr)) p h

theorem lookupD_pos_iff {m : List (K × Nat)} (hm : ∀ p ∈ m, 0 < p.2) (k : K) :
    0 < lookupD m k ↔ k ∈ m.map Prod.fst := by
  induction m with
  | nil => simp [lookupD, lookupA]
  | cons p rest ih =>
    by_cases h : p.1 = k
    · simp [lookupD, lookupA, h, hm p (List.mem_cons_self _ _)]
    · have h2 := ih (fun q hq => hm q (List.mem_cons_of_mem _ hq))
      simp only [lookupD, lookupA, if_neg h, List.map_cons, List.mem_cons]
      rw [show (lookupA rest k).getD 0 = lookupD rest k from rfl, h2]
      constructor
      · intro hx
        exact Or.inr hx
      · intro hx
        rcases hx with hx | hx
        · exact absurd hx.symm h
        · exact hx

theorem sumLen_addA (j : Nat) (m : List (K × Nat)) (k : K) (v : Nat) :
    sumLen j (addA m k v) = sumLen j m + if k.length = j then v else 0 := by
  induction m with
  | nil =>
    by_cases h : k.length = j <;> simp [addA, sumLen, h]
  | cons p rest ih =>
    by_cases hp : p.1 = k
    · subst hp
      by_cases h : p.1.length = j <;>
        simp [addA, sumLen, h, Nat.add_comm, Nat.add_assoc, Nat.add_left_comm]
    · by_cases h : p.1.length = j <;>
        · simp only [addA, if_neg hp, sumLen, List.filter_cons, h]
          simp only [sumLen] at ih
          simp [ih, Nat.add_assoc]

theorem keys_replaceA {β : Type} (m : List (K × β)) (k : K) (v : β) :
    (replaceA m k v).map Prod.fst =
      if k ∈ m.map Prod.fst then m.map Prod.fst else m.map Prod.fst ++ [k] := by
  induction m with
  | nil => simp [replaceA]
  | cons p rest ih =>
    by_cases hp : p.1 = k
    · have hmem : k ∈ (p :: rest).map Prod.fst := by
        rw [List.map_cons, hp]
        exact List.mem_cons_self _ _
      rw [if_pos hmem]
      simp only [replaceA, if_pos hp, List.map_cons]
      rw [hp]
    · by_cases hm : k ∈ rest.map Prod.fst
      · have hmem : k ∈ (p :: rest).map Prod.fst := by
          rw [List.map_cons]
          exact List.mem_cons_of_mem _ hm
        rw [if_pos hmem]
        simp only [replaceA, if_neg hp, List.map_cons, ih, if_pos hm]
      · have hmem : k ∉ (p :: rest).map Prod.fst := by
          rw [List.map_cons]
          intro hc
          rcases List.mem_cons.mp hc with hc | hc
          · exact hp hc.symm
          · exact hm hc
        rw [if_neg hmem]
        simp only [replaceA, if_neg hp, List.map_cons, ih, if_neg hm, List.cons_append]

theorem nodup_keys_replaceA {β : Type} {m : List (K × β)} (k : K) (v : β)
    (hnd : (m.map Prod.fst).Nodup) : ((replaceA m k v).map Prod.fst).Nodup := by
  rw [keys_replaceA]
  by_cases hm : k ∈ m.map Prod.fst
  · rw [if_pos hm]
    exact hnd
  · rw [if_neg hm, List.nodup_append]
    refine ⟨hnd, List.nodup_singleton _, ?_⟩
    intro a ha hb
    rw [List.mem_singleton] at hb
    exact hm (hb ▸ ha)

theorem lookupA_replaceA {β : Type} (m : List (K × β)) (k k' : K) (v : β) :
    lookupA (replaceA m k v) k' =
      if k = k' then some v else lookupA m k' := by
  induction m with
  | nil =>
    by_cases h : k = k' <;> simp [replaceA, lookupA, h]
  | cons p rest ih =>
    by_cases hp : p.1 = k
    · subst hp
      by_cases h : p.1 = k'
      · simp only [replaceA, if_pos rfl, lookupA, if_pos h]
      · simp only [replaceA, if_pos rfl, lookupA, if_neg h]
    · by_cases h : p.1 = k'
      · have hkk : k ≠ k' := fun he => hp (h.trans he.symm)
        simp only [replaceA, if_neg hp, lookupA, if_pos h, if_neg hkk]
      · simp only [replaceA, if_neg hp, lookupA, if_neg h, ih]

/-! ### Motif-frequency-map lemmas -/

theorem length_slice {s : K} {i k : Nat} (h : i + k ≤ s.length) :
    (slice s i k).length = k := by
  simp only [slice, List.length_take, List.length_drop]
  omega

theorem lookupD_motifStep (s : K) (m : List (K × Nat)) (i : Nat) (k : K) :
    lookupD (motifStep s m i) k =
      lookupD m k
        + (if i + 2 ≤ s.length ∧ slice s i 2 = k then 1 else 0)
        + (if i + 3 ≤ s.length ∧ slice s i 3 = k then 1 else 0) := by
  unfold motifStep incrA
  by_cases h2 : i + 2 ≤ s.length <;> by_cases h3 : i + 3 ≤ s.length <;>
    by_cases e2 : slice s i 2 = k <;> by_cases e3 : slice s i 3 = k <;>
      simp [h2, h3, e2, e3, lookupD_addA, Nat.add_assoc]

theorem lookupD_motif_frequencies_fold (s : K) (n : Nat) (k : K) :
    lookupD ((List.range n).foldl (motifStep s) []) k =
      ((List.range n).countP fun i => decide (i + 2 ≤ s.length) && decide (slice s i 2 = k))
        + ((List.range n).countP fun i => decide (i + 3 ≤ s.length) && decide (slice s i 3 = k)) := by
  induction n with
  | zero => simp [lookupD, lookupA]
  | succ n ih =>
    rw [List.range_succ, List.foldl_append, List.foldl_cons, List.foldl_nil,
      lookupD_motifStep, ih, List.countP_append, List.countP_append]
    simp only [List.countP_cons, List.countP_nil, Bool.and_eq_true, decide_eq_true_eq]
    by_cases h2 : n + 2 ≤ s.length <;> by_cases h3 : n + 3 ≤ s.length <;>
      by_cases e2 : slice s n 2 = k <;> by_cases e3 : slice s n 3 = k <;>
        simp [h2, h3, e2, e3] <;> omega

theorem countP_range_window (L k0 : Nat) (p : Nat → Bool) (hk0 : 1 ≤ k0) :
    ((List.range L).countP fun i => decide (i + k0 ≤ L) && p i)
      = (List.range (L + 1 - k0)).countP p := by
  rcases Nat.lt_or_ge L k0 with hL | hL
  · have h1 : L + 1 - k0 = 0 := by omega
    rw [h1]
    simp only [List.range_zero, List.countP_nil]
    rw [List.countP_eq_zero]
    intro a ha
    rw [List.mem_range] at ha
    simp only [Bool.and_eq_true, decide_eq_true_eq, not_and]
    intro hc
    exact absurd hc (by omega)
  · have hr : List.range L
        = List.range (L + 1 - k0) ++ (List.range (k0 - 1)).map (L + 1 - k0 + ·) := by
      rw [← List.range_add]
      congr 1
      omega
    rw [hr, List.countP_append]
    have hfirst :
        ((List.range (L + 1 - k0)).countP fun i => decide (i + k0 ≤ L) && p i)
          = (List.range (L + 1 - k0)).countP p := by
      refine List.countP_congr ?_
      intro x hx
      rw [List.mem_range] at hx
      have : x + k0 ≤ L := by omega
      simp [this]
    have hsecond :
        (((List.range (k0 - 1)).map (L + 1 - k0 + ·)).countP
          fun i => decide (i + k0 ≤ L) && p i) = 0 := by
      rw [List.countP_eq_zero]
      intro a ha
      rcases List.mem_map.mp ha with ⟨j, hj, rfl⟩
      rw [List.mem_range] at hj
      simp only [Bool.and_eq_true, decide_eq_true_eq, not_and]
      intro hc
      omega
    rw [hfirst, hsecond, Nat.add_zero]

theorem beq_eq_decide (a b : K) : (a == b) = decide (a = b) := by
  by_cases h : a = b <;> simp [h]

theorem windowCount_eq_countP (s m : K) :
    windowCount s m
      = (List.range (s.length + 1 - m.length)).countP fun i => decide (slice s i m.length = m) := by
  rw [windowCount, windowsOf, List.count, List.countP_map]
  refine List.countP_congr ?_
  intro x hx
  simp [beq_eq_decide]

theorem lookupD_motif_frequencies {s m : K}
    (hm : m.length = 2 ∨ m.length = 3) :
    lookupD (motif_frequencies s) m = windowCount s m := by
  rw [motif_frequencies, lookupD_motif_frequencies_fold, windowCount_eq_countP]
  rcases hm with hm | hm
  · have h3 : ((List.range s.length).countP
        fun i => decide (i + 3 ≤ s.length) && decide (slice s i 3 = m)) = 0 := by
      rw [List.countP_eq_zero]
      intro a ha
      simp only [Bool.and_eq_true, decide_eq_true_eq, not_and]
      intro hc he
      have := length_slice hc
      rw [he, hm] at this
      omega
    rw [h3, Nat.add_zero, hm]
    exact countP_range_window s.length 2 _ (by omega)
  · have h2 : ((List.range s.length).countP
        fun i => decide (i + 2 ≤ s.length) && decide (slice s i 2 = m)) = 0 := by
      rw [List.countP_eq_zero]
      intro a ha
      simp only [Bool.and_eq_true, decide_eq_true_eq, not_and]
      intro hc he
      have := length_slice hc
      rw [he, hm] at this
      omega
    rw [h2, Nat.zero_add, hm]
    exact countP_range_window s.length 3 _ (by omega)

theorem sumLen2_motifStep (s : K) (m : List (K × Nat)) (i : Nat) :
    sumLen 2 (motifStep s m i) = sumLen 2 m + if i + 2 ≤ s.length then 1 else 0 := by
  unfold motifStep incrA
  by_cases h2 : i + 2 ≤ s.length <;> by_cases h3 : i + 3 ≤ s.length <;>
    simp [h2, h3, sumLen_addA, length_slice]

theorem sumLen3_motifStep (s : K) (m : List (K × Nat)) (i : Nat) :
    sumLen 3 (motifStep s m i) = sumLen 3 m + if i + 3 ≤ s.length then 1 else 0 := by
  unfold motifStep incrA
  by_cases h2 : i + 2 ≤ s.length <;> by_cases h3 : i + 3 ≤ s.length <;>
    simp [h2, h3, sumLen_addA, length_slice]

theorem sumLen2_motif_frequencies (s : K) :
    sumLen 2 (motif_frequencies s) = s.length - 1 := by
  have hfold : ∀ n, sumLen 2 ((List.range n).foldl (motifStep s) [])
      = (List.range n).countP fun i => decide (i + 2 ≤ s.length) := by
    intro n
    induction n with
    | zero => simp [sumLen]
    | succ n ih =>
      rw [List.range_succ, List.foldl_append, List.foldl_cons, List.foldl_nil,
        sumLen2_motifStep, ih, List.countP_append]
      simp only [List.countP_cons, List.countP_nil]
      by_cases h2 : n + 2 ≤ s.length <;> simp [h2]
  rw [motif_frequencies, hfold]
  have hw := countP_range_window s.length 2 (fun _ => true) (by omega)
  have h1 : ((List.range s.length).countP fun i => decide (i + 2 ≤ s.length))
      = ((List.range s.length).countP fun i => decide (i + 2 ≤ s.length) && true) := by
    refine List.countP_congr ?_
    intro x hx
    simp
  rw [h1,
    show ((List.range s.length).countP fun i => decide (i + 2 ≤ s.length) && true)
      = (List.range (s.length + 1 - 2)).countP (fun _ => true) from hw,
    List.countP_true, List.length_range]
  omega

theorem sumLen3_motif_frequencies (s : K) :
    sumLen 3 (motif_frequencies s) = s.length - 2 := by
  have hfold : ∀ n, sumLen 3 ((List.range n).foldl (motifStep s) [])
      = (List.range n).countP fun i => decide (i + 3 ≤ s.length) := by
    intro n
    induction n with
    | zero => simp [sumLen]
    | succ n ih =>
      rw [List.range_succ, List.foldl_append, List.foldl_cons, List.foldl_nil,
        sumLen3_motifStep, ih, List.countP_append]
      simp only [List.countP_cons, List.countP_nil]
      by_cases h3 : n + 3 ≤ s.length <;> simp [h3]
  rw [motif_frequencies, hfold]
  have hw := countP_range_window s.length 3 (fun _ => true) (by omega)
  have h1 : ((List.range s.length).countP fun i => decide (i + 3 ≤ s.length))
      = ((List.range s.length).countP fun i => decide (i + 3 ≤ s.length) && true) := by
    refine List.countP_congr ?_
    intro x hx
    simp
  rw [h1,
    show ((List.range s.length).countP fun i => decide (i + 3 ≤ s.length) && true)
      = (List.range (s.length + 1 - 3)).countP (fun _ => true) from hw,
    List.countP_true, List.length_range]
  omega

theorem foldl_preserve {α β : Type} (f : β → α → β) (P : β → Prop)
    (hstep : ∀ b a, P b → P (f b a)) :
    ∀ (l : List α) (b : β), P b → P (l.foldl f b) := by
  intro l
  induction l with
  | nil =>
    intro b h
    exact h
  | cons a l ih =>
    intro b h
    rw [List.foldl_cons]
    exact ih _ (hstep _ _ h)

/-- The three structural facts about the per-read frequency map that the
source loop maintains: distinct keys, positive counts, and key widths 2
or 3. -/
def freqInv (m : List (K × Nat)) : Prop :=
  (m.map Prod.fst).Nodup ∧ (∀ p ∈ m, 0 < p.2)
    ∧ (∀ p ∈ m, p.1.length = 2 ∨ p.1.length = 3)

theorem freqInv_addA {s : K} {m : List (K × Nat)} {i k0 : Nat}
    (hc : i + k0 ≤ s.length) (hk0 : k0 = 2 ∨ k0 = 3) (h : freqInv m) :
    freqInv (incrA m (slice s i k0)) := by
  obtain ⟨h1, h2, h3⟩ := h
  refine ⟨nodup_keys_addA _ _ h1, pos_addA h2 Nat.one_pos, ?_⟩
  intro p hp
  rcases mem_addA hp with hm | hm
  · exact h3 p hm
  · rw [hm, length_slice hc]
    rcases hk0 with h | h
    · exact Or.inl h
    · exact Or.inr h

theorem freqInv_motifStep (s : K) (m : List (K × Nat)) (i : Nat)
    (h : freqInv m) : freqInv (motifStep s m i) := by
  unfold motifStep
  by_cases c2 : i + 2 ≤ s.length <;> by_cases c3 : i + 3 ≤ s.length <;>
    simp only [c2, c3, if_true, if_false]
  · exact freqInv_addA c3 (Or.inr rfl) (freqInv_addA c2 (Or.inl rfl) h)
  · exact freqInv_addA c2 (Or.inl rfl) h
  · exact freqInv_addA c3 (Or.inr rfl) h
  · exact h

theorem freqInv_motif_frequencies (s : K) : freqInv (motif_frequencies s) := by
  rw [motif_frequencies]
  refine foldl_preserve (motifStep s) freqInv (fun m i h => freqInv_motifStep s m i h) _ [] ?_
  refine ⟨List.nodup_nil, ?_, ?_⟩ <;> intro p hp <;> cases hp

theorem mem_motif_frequencies_value {s : K} {p : K × Nat}
    (hp : p ∈ motif_frequencies s) : p.2 = windowCount s p.1 := by
  obtain ⟨h1, _, h3⟩ := freqInv_motif_frequencies s
  have hl := lookupA_mem h1 hp
  have h4 := @lookupD_motif_frequencies s p.1 (h3 p hp)
  rw [lookupD, hl, Option.getD_some] at h4
  exact h4

/-! ### Vote-update (population aggregator) lemmas -/

theorem any_eq_false_keys {l : List (K × Nat)} {k : K}
    (h : k ∉ l.map Prod.fst) (f : K × Nat → Bool) :
    (l.any fun p => p.1 == k && f p) = false := by
  induction l with
  | nil => rfl
  | cons p l ih =>
    simp only [List.map_cons, List.mem_cons, not_or] at h
    obtain ⟨h1, h2⟩ := h
    rw [List.any_cons, ih h2, Bool.or_false, beq_eq_decide,
      decide_eq_false (fun he => h1 (he.symm)), Bool.false_and]

/-- One pass of the `for (motif, count) in motif_frequencies` loop over an
arbitrary entry list with distinct keys: a key's vote count rises by one
exactly when the list holds an entry for it whose proportion strictly
exceeds the threshold. -/
theorem lookupD_voteFold (T : ℚ) (s : K) :
    ∀ (l : List (K × Nat)) (mc : List (K × Nat)) (k : K),
      (l.map Prod.fst).Nodup →
      lookupD (l.foldl
          (fun acc p => if T < proportion s p then incrA acc p.1 else acc) mc) k
        = lookupD mc k
          + (if l.any (fun p => p.1 == k && decide (T < proportion s p)) then 1 else 0) := by
  intro l
  induction l with
  | nil =>
    intro mc k _
    simp
  | cons p l ih =>
    intro mc k hnd
    have hnd2 := (List.nodup_cons.mp hnd).2
    have hnotin := (List.nodup_cons.mp hnd).1
    rw [List.foldl_cons, List.any_cons]
    by_cases hpk : p.1 = k
    · have hany : (l.any fun q => q.1 == k && decide (T < proportion s q)) = false := by
        refine any_eq_false_keys ?_ _
        rw [← hpk]
        exact hnotin
      by_cases hT : T < proportion s p
      · rw [if_pos hT, ih _ _ hnd2, hany, incrA, lookupD_addA]
        simp [hpk, hT, beq_eq_decide]
      · rw [if_neg hT, ih _ _ hnd2, hany]
        simp [hpk, hT, beq_eq_decide]
    · have hfirst : (p.1 == k && decide (T < proportion s p)) = false := by
        rw [beq_eq_decide, decide_eq_false hpk, Bool.false_and]
      rw [hfirst, Bool.false_or]
      by_cases hT : T < proportion s p
      · rw [if_pos hT, ih _ _ hnd2, incrA, lookupD_addA, if_neg hpk, Nat.add_zero]
      · rw [if_neg hT, ih _ _ hnd2]

theorem lookupD_voteUpdate (mc : List (K × Nat)) (s : K) (T : ℚ) (k : K) :
    lookupD (voteUpdate mc s T) k
      = lookupD mc k
        + (if (motif_frequencies s).any
              (fun p => p.1 == k && decide (T < proportion s p)) then 1 else 0) := by
  rw [voteUpdate]
  exact lookupD_voteFold T s _ mc k (freqInv_motif_frequencies s).1

theorem lookupD_voteUpdate_le (mc : List (K × Nat)) (s : K) (T : ℚ) (k : K) :
    lookupD (voteUpdate mc s T) k ≤ lookupD mc k + 1 := by
  rw [lookupD_voteUpdate]
  by_cases h : (motif_frequencies s).any
      (fun p => p.1 == k && decide (T < proportion s p)) <;>
    simp [h]

theorem proportion_eq_div (s : K) (p : K × Nat) :
    proportion s p
      = if p.1.length = 2 then (p.2 : ℚ) / ((s.length - 1 : Nat) : ℚ)
        else (p.2 : ℚ) / ((s.length - 2 : Nat) : ℚ) := by
  rw [proportion]
  by_cases h : p.1.length = 2
  · rw [if_pos h, if_pos h, Rat.mkRat_eq_div]
    simp
  · rw [if_neg h, if_neg h, Rat.mkRat_eq_div]
    simp

/-! ### Record-reader loop lemmas -/

theorem stepRead_votes_le {st : PState} (T : ℚ) (t s : K)
    (hinv : ∀ k, lookupD st.motif_counts k ≤ st.total_reads) :
    ∀ k, lookupD (stepRead T st t s).motif_counts k ≤ (stepRead T st t s).total_reads := by
  intro k
  have h1 := lookupD_voteUpdate_le st.motif_counts s T k
  have h2 := hinv k
  simp only [stepRead]
  omega

theorem processLoop_cons_cons (maxr : Nat) (T : ℚ) (h s : K) (rest : List K)
    (st : PState) :
    processLoop maxr T (h :: s :: rest) st =
      if maxr ≤ st.total_reads then .ok st
      else if s.length < 2 then processLoop maxr T rest st
      else
        match h with
        | [] => .error (.panic "byte index 1 is out of bounds")
        | c :: read_id =>
          if c.utf8Size = 1 then
            match rest with
            | [] => .ok (stepRead T st read_id s)
            | [_] => .ok (stepRead T st read_id s)
            | _ :: _ :: rest2 => processLoop maxr T rest2 (stepRead T st read_id s)
          else .error (.panic "byte index 1 is not a char boundary") := by
  rcases h with _ | ⟨c, t⟩ <;> rcases rest with _ | ⟨l3, rest1⟩
  · simp only [processLoop]
  · rcases rest1 with _ | ⟨l4, rest2⟩ <;> simp only [processLoop]
  · simp only [processLoop]
  · rcases rest1 with _ | ⟨l4, rest2⟩ <;> simp only [processLoop]

theorem processLoop_votes_le_aux (maxr : Nat) (T : ℚ) :
    ∀ (n : Nat) (lines : List K), lines.length ≤ n → ∀ (st st' : PState),
      processLoop maxr T lines st = .ok st' →
      (∀ k, lookupD st.motif_counts k ≤ st.total_reads) →
      ∀ k, lookupD st'.motif_counts k ≤ st'.total_reads := by
  intro n
  induction n with
  | zero =>
    intro lines hl st st' hrun hinv k
    have hnil : lines = [] := List.eq_nil_of_length_eq_zero (Nat.le_zero.mp hl)
    subst hnil
    simp only [processLoop] at hrun
    cases hrun
    exact hinv k
  | succ n ih =>
    intro lines hl st st' hrun hinv k
    rcases lines with _ | ⟨h, rest0⟩
    · simp only [processLoop] at hrun
      cases hrun
      exact hinv k
    · rcases rest0 with _ | ⟨s, rest⟩
      · simp only [processLoop] at hrun
        cases hrun
        exact hinv k
      · rw [processLoop_cons_cons] at hrun
        split at hrun
        · cases hrun
          exact hinv k
        · split at hrun
          · refine ih rest ?_ st st' hrun hinv k
            simp only [List.length_cons] at hl
            omega
          · split at hrun
            · simp at hrun
            · rename_i c t
              split at hrun
              · split at hrun
                · cases hrun
                  exact stepRead_votes_le T t s hinv k
                · cases hrun
                  exact stepRead_votes_le T t s hinv k
                · rename_i l3 l4 rest2
                  refine ih rest2 ?_ _ st' hrun (stepRead_votes_le T t s hinv) k
                  simp only [List.length_cons] at hl
                  omega
              · simp at hrun

theorem processLoop_total_aux (maxr : Nat) (T : ℚ) :
    ∀ (n : Nat) (lines : List K), lines.length ≤ n →
      (∀ l ∈ lines, ∃ c t, l = c :: t ∧ c.utf8Size = 1) →
      ∀ st, ∃ st', processLoop maxr T lines st = .ok st' := by
  intro n
  induction n with
  | zero =>
    intro lines hl hall st
    have hnil : lines = [] := List.eq_nil_of_length_eq_zero (Nat.le_zero.mp hl)
    subst hnil
    exact ⟨st, rfl⟩
  | succ n ih =>
    intro lines hl hall st
    rcases lines with _ | ⟨h, rest0⟩
    · exact ⟨st, rfl⟩
    · rcases rest0 with _ | ⟨s, rest⟩
      · exact ⟨st, rfl⟩
      · obtain ⟨c, t, rfl, hc⟩ := hall h (List.mem_cons_self _ _)
        rw [processLoop_cons_cons]
        by_cases hmax : maxr ≤ st.total_reads
        · exact ⟨st, by rw [if_pos hmax]⟩
        · rw [if_neg hmax]
          by_cases hlen : s.length < 2
          · obtain ⟨st', hst'⟩ := ih rest
              (by simp only [List.length_cons] at hl; omega)
              (fun l hlm => hall l
                (List.mem_cons_of_mem _ (List.mem_cons_of_mem _ hlm))) st
            exact ⟨st', by rw [if_pos hlen]; exact hst'⟩
          · rw [if_neg hlen]
            rcases rest with _ | ⟨l3, rest1⟩
            · exact ⟨stepRead T st t s, by simp [hc]⟩
            · rcases rest1 with _ | ⟨l4, rest2⟩
              · exact ⟨stepRead T st t s, by simp [hc]⟩
              · obtain ⟨st', hst'⟩ := ih rest2
                  (by simp only [List.length_cons] at hl; omega)
                  (fun l hlm => hall l (by
                    refine List.mem_cons_of_mem _ (List.mem_cons_of_mem _ ?_)
                    exact List.mem_cons_of_mem _ (List.mem_cons_of_mem _ hlm)))
                  (stepRead T st t s)
                exact ⟨st', by simp [hc, hst']⟩

theorem processLoop_empty_header (maxr : Nat) (T : ℚ) (s : K) (rest : List K)
    (st : PState) (hmax : st.total_reads < maxr) (hs : 2 ≤ s.length) :
    processLoop maxr T ([] :: s :: rest) st
      = .error (.panic "byte index 1 is out of bounds") := by
  rw [processLoop_cons_cons, if_neg (Nat.not_le.mpr hmax), if_neg (Nat.not_lt.mpr hs)]

theorem processLoop_multibyte_header (maxr : Nat) (T : ℚ) (c : Char) (t s : K)
    (rest : List K) (st : PState) (hmax : st.total_reads < maxr)
    (hs : 2 ≤ s.length) (hc : c.utf8Size ≠ 1) :
    processLoop maxr T ((c :: t) :: s :: rest) st
      = .error (.panic "byte index 1 is not a char boundary") := by
  rw [processLoop_cons_cons, if_neg (Nat.not_le.mpr hmax), if_neg (Nat.not_lt.mpr hs)]
  simp [hc]

/-! ### Mask-merge (dust report) lemmas -/

theorem collectMasked_not3 {l : K} (h : (splitWs l).length ≠ 3)
    (rest : List K) (mb : List (K × Nat)) :
    collectMasked (l :: rest) mb = collectMasked rest mb := by
  simp only [collectMasked]
  rcases hsp : splitWs l with _ | ⟨a, _ | ⟨b, _ | ⟨c, _ | ⟨d, ts⟩⟩⟩⟩
  · rfl
  · rfl
  · rfl
  · exact absurd (by rw [hsp]; rfl) h
  · rfl

theorem collectMasked_start_panic {l : K} {a b c : K}
    (hsp : splitWs l = [a, b, c]) (hb : parseUsize b = none)
    (rest : List K) (mb : List (K × Nat)) :
    collectMasked (l :: rest) mb = .error (.panic "Invalid start position") := by
  simp only [collectMasked, hsp, hb]

theorem collectMasked_end_panic {l : K} {a b c : K} {s : Nat}
    (hsp : splitWs l = [a, b, c]) (hb : parseUsize b = some s)
    (hc : parseUsize c = none)
    (rest : List K) (mb : List (K × Nat)) :
    collectMasked (l :: rest) mb = .error (.panic "Invalid end position") := by
  simp only [collectMasked, hsp, hb, hc]

theorem collectMasked_underflow {l : K} {a b c : K} {s e : Nat}
    (hsp : splitWs l = [a, b, c]) (hb : parseUsize b = some s)
    (hc : parseUsize c = some e) (hlt : e < s)
    (rest : List K) (mb : List (K × Nat)) :
    collectMasked (l :: rest) mb
      = .error (.panic "attempt to subtract with overflow") := by
  simp only [collectMasked, hsp, hb, hc, if_pos hlt]

theorem collectMasked_step3 {l : K} {a b c : K} {s e : Nat}
    (hsp : splitWs l = [a, b, c]) (hb : parseUsize b = some s)
    (hc : parseUsize c = some e) (hse : s ≤ e)
    (rest : List K) (mb : List (K × Nat)) :
    collectMasked (l :: rest) mb
      = collectMasked rest (addA mb a (e - s + 1)) := by
  simp only [collectMasked, hsp, hb, hc, if_neg (Nat.not_lt.mpr hse)]

theorem tripleOf_eq_some {l : K} {a b c : K} {s e : Nat}
    (hsp : splitWs l = [a, b, c]) (hb : parseUsize b = some s)
    (hc : parseUsize c = some e) :
    tripleOf l = some (a, e - s + 1) := by
  simp only [tripleOf, hsp, hb, hc]

theorem tripleOf_eq_none {l : K} (h : (splitWs l).length ≠ 3) :
    tripleOf l = none := by
  simp only [tripleOf]
  rcases hsp : splitWs l with _ | ⟨a, _ | ⟨b, _ | ⟨c, _ | ⟨d, ts⟩⟩⟩⟩
  · rfl
  · rfl
  · rfl
  · exact absurd (by rw [hsp]; rfl) h
  · rfl

theorem collectMasked_wf :
    ∀ (lines : List K) (mb : List (K × Nat)),
      (∀ l ∈ lines, wfLine l = true) →
      collectMasked lines mb
        = .ok ((triplesOf lines).foldl (fun m p => addA m p.1 p.2) mb) := by
  intro lines
  induction lines with
  | nil =>
    intro mb _
    rfl
  | cons l rest ih =>
    intro mb hall
    have hwf := hall l (List.mem_cons_self _ _)
    have hrest := fun l2 hl2 => hall l2 (List.mem_cons_of_mem _ hl2)
    rcases hsp : splitWs l with _ | ⟨a, _ | ⟨b, _ | ⟨c, _ | ⟨d, ts⟩⟩⟩⟩
    · have ht : triplesOf (l :: rest) = triplesOf rest := by
        simp only [triplesOf, List.filterMap_cons,
          tripleOf_eq_none (show (splitWs l).length ≠ 3 by rw [hsp]; simp)]
      rw [collectMasked_not3 (by rw [hsp]; simp) rest mb, ih mb hrest, ht]
    · have ht : triplesOf (l :: rest) = triplesOf rest := by
        simp only [triplesOf, List.filterMap_cons,
          tripleOf_eq_none (show (splitWs l).length ≠ 3 by rw [hsp]; simp)]
      rw [collectMasked_not3 (by rw [hsp]; simp) rest mb, ih mb hrest, ht]
    · have ht : triplesOf (l :: rest) = triplesOf rest := by
        simp only [triplesOf, List.filterMap_cons,
          tripleOf_eq_none (show (splitWs l).length ≠ 3 by rw [hsp]; simp)]
      rw [collectMasked_not3 (by rw [hsp]; simp) rest mb, ih mb hrest, ht]
    · rcases hb : parseUsize b with _ | s
      · simp [wfLine, hsp, hb] at hwf
      · rcases hc : parseUsize c with _ | e
        · simp [wfLine, hsp, hb, hc] at hwf
        · simp only [wfLine, hsp, hb, hc, decide_eq_true_eq] at hwf
          have ht : triplesOf (l :: rest) = (a, e - s + 1) :: triplesOf rest := by
            simp only [triplesOf, List.filterMap_cons, tripleOf_eq_some hsp hb hc]
          rw [collectMasked_step3 hsp hb hc hwf rest mb, ih _ hrest, ht,
            List.foldl_cons]
    · have ht : triplesOf (l :: rest) = triplesOf rest := by
        simp only [triplesOf, List.filterMap_cons,
          tripleOf_eq_none (show (splitWs l).length ≠ 3 by rw [hsp]; simp)]
      rw [collectMasked_not3 (by rw [hsp]; simp) rest mb, ih mb hrest, ht]

theorem lookupD_foldl_addA :
    ∀ (ts : List (K × Nat)) (mb : List (K × Nat)) (k : K),
      lookupD (ts.foldl (fun m p => addA m p.1 p.2) mb) k
        = lookupD mb k + ((ts.filter fun p => p.1 = k).map Prod.snd).sum := by
  intro ts
  induction ts with
  | nil =>
    intro mb k
    simp
  | cons p ts ih =>
    intro mb k
    rw [List.foldl_cons, ih, lookupD_addA, List.filter_cons]
    by_cases hpk : p.1 = k
    · simp [hpk, Nat.add_assoc]
    · simp [hpk]

theorem keys_foldl_addA :
    ∀ (ts : List (K × Nat)) (mb : List (K × Nat)) (k : K),
      (k ∈ ((ts.foldl (fun m p => addA m p.1 p.2) mb).map Prod.fst)
        ↔ k ∈ mb.map Prod.fst ∨ k ∈ ts.map Prod.fst) := by
  intro ts
  induction ts with
  | nil =>
    intro mb k
    simp
  | cons p ts ih =>
    intro mb k
    rw [List.foldl_cons, ih, keys_addA]
    by_cases hm : p.1 ∈ mb.map Prod.fst
    · rw [if_pos hm]
      simp only [List.map_cons, List.mem_cons]
      constructor
      · intro hx
        rcases hx with hx | hx
        · exact Or.inl hx
        · exact Or.inr (Or.inr hx)
      · intro hx
        rcases hx with hx | hx | hx
        · exact Or.inl hx
        · rw [hx]
          exact Or.inl hm
        · exact Or.inr hx
    · rw [if_neg hm]
      constructor
      · intro hx
        rcases hx with hx | hx
        · rcases List.mem_append.mp hx with hy | hy
          · exact Or.inl hy
          · rw [List.mem_singleton] at hy
            rw [List.map_cons]
            right
            rw [hy]
            exact List.mem_cons_self _ _
        · rw [List.map_cons]
          exact Or.inr (List.mem_cons_of_mem _ hx)
      · intro hx
        rcases hx with hx | hx
        · exact Or.inl (List.mem_append.mpr (Or.inl hx))
        · rw [List.map_cons, List.mem_cons] at hx
          rcases hx with hx | hx
          · refine Or.inl (List.mem_append.mpr (Or.inr ?_))
            rw [List.mem_singleton]
            exact hx
          · exact Or.inr hx

theorem nodup_keys_foldl_addA :
    ∀ (ts : List (K × Nat)) (mb : List (K × Nat)),
      (mb.map Prod.fst).Nodup →
      (((ts.foldl (fun m p => addA m p.1 p.2) mb).map Prod.fst)).Nodup := by
  intro ts
  induction ts with
  | nil =>
    intro mb h
    exact h
  | cons p ts ih =>
    intro mb h
    rw [List.foldl_cons]
    exact ih _ (nodup_keys_addA _ _ h)

theorem parse_dust_count (tbl : List (K × Nat)) (T : ℚ) (lines : List K)
    (mb : List (K × Nat))
    (hnd : (mb.map Prod.fst).Nodup)
    (hval : ∀ p ∈ mb, p.2 = maskedOf lines p.1)
    (hkeys : ∀ x, x ∈ mb.map Prod.fst ↔ x ∈ (triplesOf lines).map Prod.fst) :
    (mb.filter fun p =>
      match lookupA tbl p.1 with
      | some total_length =>
        if total_length = 0 then true
        else decide (T < mkRat p.2 total_length)
      | none => false).length
      = (((triplesOf lines).map Prod.fst).toFinset.filter
          (fun n => isLC tbl T lines n = true)).card := by
  have hq : ∀ p ∈ mb,
      (match lookupA tbl p.1 with
        | some total_length =>
          if total_length = 0 then true
          else decide (T < mkRat p.2 total_length)
        | none => false)
        = isLC tbl T lines p.1 := by
    intro p hp
    rw [isLC]
    rcases hL : lookupA tbl p.1 with _ | L
    · rfl
    · by_cases hL0 : L = 0
      · simp [hL0]
      · simp only [if_neg hL0]
        rw [decide_eq_decide, hval p hp, Rat.mkRat_eq_div]
        simp
  rw [List.filter_congr hq, ← List.countP_eq_length_filter]
  have h3 : (mb.map Prod.fst).countP (isLC tbl T lines)
      = mb.countP (fun p => isLC tbl T lines p.1) := List.countP_map _ _ _
  rw [← h3, List.countP_eq_length_filter,
    ← List.toFinset_card_of_nodup ((hnd).filter _), List.toFinset_filter]
  congr 1
  ext x
  simp only [Finset.mem_filter, List.mem_toFinset]
  rw [hkeys]

theorem parse_dust_output_wf (lines : List K) (tbl : List (K × Nat)) (T : ℚ)
    (hwf : ∀ l ∈ lines, wfLine l = true) :
    parse_dust_output lines tbl T
      = .ok ((((triplesOf lines).map Prod.fst).toFinset.filter
          (fun n => isLC tbl T lines n = true)).card) := by
  have hcm := collectMasked_wf lines [] hwf
  simp only [parse_dust_output, hcm]
  have hnd : ((((triplesOf lines).foldl (fun m p => addA m p.1 p.2) []).map
      Prod.fst)).Nodup := nodup_keys_foldl_addA _ [] (by simp)
  have hval : ∀ p ∈ (triplesOf lines).foldl (fun m p => addA m p.1 p.2) [],
      p.2 = maskedOf lines p.1 := by
    intro p hp
    have h1 := lookupA_mem hnd hp
    have h2 := lookupD_foldl_addA (triplesOf lines) [] p.1
    rw [lookupD, h1, Option.getD_some] at h2
    rw [h2]
    simp [lookupD, lookupA, maskedOf]
  have hkeys : ∀ x,
      (x ∈ (((triplesOf lines).foldl (fun m p => addA m p.1 p.2) []).map Prod.fst)
        ↔ x ∈ (triplesOf lines).map Prod.fst) := by
    intro x
    rw [keys_foldl_addA]
    simp
  rw [parse_dust_count tbl T lines _ hnd hval hkeys]

/-! ### Finalization (result table) lemmas -/

theorem initialize_all_motifs_count :
    initialize_all_motifs.length = 80 := by
  decide

theorem initialize_all_motifs_nodup :
    (initialize_all_motifs.map Prod.fst).Nodup := by
  decide

theorem lowComplexityKey_not_motif :
    lowComplexityKey ∉ initialize_all_motifs.map Prod.fst := by
  decide

theorem di_mem_initialize :
    ∀ c1 ∈ atgcChars, ∀ c2 ∈ atgcChars,
      [c1, c2] ∈ initialize_all_motifs.map Prod.fst := by
  decide

theorem tri_mem_initialize :
    ∀ c1 ∈ atgcChars, ∀ c2 ∈ atgcChars, ∀ c3 ∈ atgcChars,
      [c1, c2, c3] ∈ initialize_all_motifs.map Prod.fst := by
  decide

theorem mem_initialize_of_atgc {m : K}
    (hlen : m.length = 2 ∨ m.length = 3) (hc : ∀ c ∈ m, c ∈ atgcChars) :
    m ∈ initialize_all_motifs.map Prod.fst := by
  rcases hlen with h2 | h3
  · rcases m with _ | ⟨c1, _ | ⟨c2, _ | ⟨c3, t⟩⟩⟩ <;> simp at h2
    exact di_mem_initialize c1 (hc c1 (by simp)) c2 (hc c2 (by simp))
  · rcases m with _ | ⟨c1, _ | ⟨c2, _ | ⟨c3, _ | ⟨c4, t⟩⟩⟩⟩ <;> simp at h3
    exact tri_mem_initialize c1 (hc c1 (by simp)) c2 (hc c2 (by simp))
      c3 (hc c3 (by simp))

theorem keys_foldl_replaceA {β : Type} (g : K × Nat → β) :
    ∀ (ts : List (K × Nat)) (acc : List (K × β)),
      (∀ p ∈ ts, p.1 ∈ acc.map Prod.fst) →
      ((ts.foldl (fun a p => replaceA a p.1 (g p)) acc).map Prod.fst)
        = acc.map Prod.fst := by
  intro ts
  induction ts with
  | nil =>
    intro acc _
    rfl
  | cons p ts ih =>
    intro acc hmem
    rw [List.foldl_cons]
    have hk : (replaceA acc p.1 (g p)).map Prod.fst = acc.map Prod.fst := by
      rw [keys_replaceA, if_pos (hmem p (List.mem_cons_self _ _))]
    rw [ih (replaceA acc p.1 (g p)) ?_, hk]
    intro q hq
    rw [hk]
    exact hmem q (List.mem_cons_of_mem _ hq)

theorem finalizeTable_keys (mc : List (K × Nat)) (total lc : Nat)
    (hmc : ∀ p ∈ mc, p.1 ∈ initialize_all_motifs.map Prod.fst) :
    (finalizeTable mc total lc).map Prod.fst
      = initialize_all_motifs.map Prod.fst ++ [lowComplexityKey] := by
  rw [finalizeTable]
  have h1 := keys_foldl_replaceA (fun p => percentOf p.2 total) mc
    initialize_all_motifs hmc
  rw [keys_replaceA, h1, if_neg]
  exact lowComplexityKey_not_motif

/-! ### Claim theorems -/

/-- Claim C1 (code bug): the claim says an invalid record (sequence length
`< 2`) still has its separator and quality lines consumed so that later
records stay aligned on 4-line boundaries.  The `continue` in the source
skips the two trailing `lines.next()` calls, so those lines are NOT
consumed: on a FASTQ input whose first record has the 1-character sequence
`A` followed by one well-formed record `@r2/ACGT`, the loop then treats
the `+` separator as a header and the quality line as a sequence,
producing two bogus reads with empty identifier (total 2) instead of the
single aligned read `r2` of length 4 that the claim implies. -/
theorem c1_invalid_record_misaligns :
    process_reads_and_write_fasta
        (["@r1", "A", "+", "II", "@r2", "ACGT", "+", "IIII"].map String.toList)
        100000 (mkRat 1 2) 0
      = .ok { motif_counts := [("II".toList, 2), ("III".toList, 1)],
              total_reads := 2,
              read_lengths := [([], 4)],
              fasta := [['>'], "II".toList, ['>'], "IIII".toList] } := by
  decide

/-- Claim C2 (code bug): with `skip = 2` on an input of exactly 2 records,
zero reads are processed and the run does complete (the reader returns the
empty state), but the low-complexity percentage is `(0 as f64 / 0 as f64)
* 100.0 = NaN`, which `main` inserts into the result table unguarded — not
the `0` the claim requires. -/
theorem c2_zero_reads_nan :
    process_reads_and_write_fasta
        (["@r1", "ACGT", "+", "IIII", "@r2", "ACGT", "+", "IIII"].map String.toList)
        100000 (mkRat 1 2) 2
      = .ok { motif_counts := [], total_reads := 0, read_lengths := [],
              fasta := [] }
    ∧ lookupA (finalizeTable [] 0 0) lowComplexityKey = some FVal.nan
    ∧ FVal.nan ≠ FVal.fin 0 :=
  ⟨by decide, by decide, by decide⟩

/-- Counterexample for claim C3: on the input record `@r/NNNN` (threshold
50%), the motifs `NN` and `NNN` are voted and inserted into the result
table in addition to the 80 fixed motifs and the low-complexity label, so
the table has 83 entries, not 81. -/
theorem c3_counterexample_nonACGT :
    (mainTable (["@r", "NNNN", "+", "IIII"].map String.toList) 100000
        (mkRat 1 2) 0 []).map List.length = .ok 83 := by
  decide

/-- Claim C3 (amended): whenever every voted motif is a 2- or 3-character
string over `{A,T,G,C}` — in particular whenever all processed sequence
lines are over that alphabet — the final result table has exactly
`80 + 1 = 81` entries: the 80 fixed motifs (each exactly once, the keys
being distinct) plus the low-complexity label exactly once, regardless of
the vote counts, the total-read count and the low-complexity count. -/
theorem c3_table_81_entries (mc : List (K × Nat)) (total lc : Nat)
    (hmc : ∀ p ∈ mc, (p.1.length = 2 ∨ p.1.length = 3)
      ∧ ∀ c ∈ p.1, c ∈ atgcChars) :
    (finalizeTable mc total lc).length = 81
    ∧ ((finalizeTable mc total lc).map Prod.fst).Nodup
    ∧ (∀ m ∈ initialize_all_motifs.map Prod.fst,
        m ∈ (finalizeTable mc total lc).map Prod.fst)
    ∧ lowComplexityKey ∈ (finalizeTable mc total lc).map Prod.fst
    ∧ initialize_all_motifs.length = 80 := by
  have hkeys := finalizeTable_keys mc total lc
    (fun p hp => mem_initialize_of_atgc (hmc p hp).1 (hmc p hp).2)
  have hlen : (finalizeTable mc total lc).length = 81 := by
    have h2 := congrArg List.length hkeys
    rw [List.length_map, List.length_append, List.length_map,
      initialize_all_motifs_count] at h2
    simpa using h2
  refine ⟨hlen, ?_, ?_, ?_, initialize_all_motifs_count⟩
  · rw [hkeys, List.nodup_append]
    refine ⟨initialize_all_motifs_nodup, List.nodup_singleton _, ?_⟩
    intro a ha hb
    rw [List.mem_singleton] at hb
    exact lowComplexityKey_not_motif (hb ▸ ha)
  · intro m hmem
    rw [hkeys]
    exact List.mem_append.mpr (Or.inl hmem)
  · rw [hkeys]
    exact List.mem_append.mpr (Or.inr (List.mem_singleton.mpr rfl))

/-- Witness for the amended claim C3 at a concrete voted-motif table. -/
theorem c3_table_81_entries_witness :
    (finalizeTable [(['A', 'T'], 1)] 1 0).length = 81 :=
  (c3_table_81_entries [(['A', 'T'], 1)] 1 0 (by decide)).1

/-- Claim C4: for a read of length `L ≥ 2`, the per-read frequency map
counts every overlapping window (step 1): its dinucleotide counts sum to
`L - 1` and its trinucleotide counts sum to `L - 2`; every entry is a 2-
or 3-character motif whose count equals its number of sliding-window
occurrences; and the within-read proportion is the count divided by
`L - 1` for a dinucleotide and by `L - 2` for a trinucleotide. -/
theorem c4_window_sums (s : K) (_hL : 2 ≤ s.length) :
    sumLen 2 (motif_frequencies s) = s.length - 1
    ∧ sumLen 3 (motif_frequencies s) = s.length - 2
    ∧ ∀ p ∈ motif_frequencies s,
        (p.1.length = 2 ∨ p.1.length = 3)
        ∧ p.2 = windowCount s p.1
        ∧ (p.1.length = 2 →
            proportion s p = (p.2 : ℚ) / ((s.length - 1 : Nat) : ℚ))
        ∧ (p.1.length = 3 →
            proportion s p = (p.2 : ℚ) / ((s.length - 2 : Nat) : ℚ)) := by
  refine ⟨sumLen2_motif_frequencies s, sumLen3_motif_frequencies s, ?_⟩
  intro p hp
  obtain ⟨h1, h2, h3⟩ := freqInv_motif_frequencies s
  refine ⟨h3 p hp, mem_motif_frequencies_value hp, ?_, ?_⟩
  · intro hlen
    rw [proportion_eq_div, if_pos hlen]
  · intro hlen
    rw [proportion_eq_div, if_neg (by rw [hlen]; decide)]

/-- Witness for claim C4 on the read `ATAT`. -/
theorem c4_window_sums_witness :
    sumLen 2 (motif_frequencies "ATAT".toList) = "ATAT".toList.length - 1
    ∧ sumLen 3 (motif_frequencies "ATAT".toList) = "ATAT".toList.length - 2 :=
  ⟨(c4_window_sums "ATAT".toList (by decide)).1,
   (c4_window_sums "ATAT".toList (by decide)).2.1⟩

/-- Claim C5: on a panic-free masking report, `parse_dust_output` returns
exactly the number of report identifiers whose summed interval lengths
(each line contributing `end - start + 1`, overlapping intervals summed
without de-overlap) divided by the recorded length strictly exceed the
threshold; identifiers absent from the length table are ignored; and on
the concrete line `readA 2 4` with length 10 (masked 3, proportion 0.3)
the read is not low-complexity at threshold 0.4 but is at threshold
0.2. -/
theorem c5_mask_merge :
    (∀ (lines : List K) (tbl : List (K × Nat)) (T : ℚ),
      (∀ l ∈ lines, wfLine l = true) →
      parse_dust_output lines tbl T
        = .ok ((((triplesOf lines).map Prod.fst).toFinset.filter
            (fun n => isLC tbl T lines n = true)).card))
    ∧ (∀ (l : K) (a b c : K) (s e : Nat), splitWs l = [a, b, c] →
        parseUsize b = some s → parseUsize c = some e →
        tripleOf l = some (a, e - s + 1))
    ∧ (∀ (tbl : List (K × Nat)) (T : ℚ) (lines : List K) (n : K) (L : Nat),
        lookupA tbl n = some L → L ≠ 0 →
        (isLC tbl T lines n = true ↔ T < (maskedOf lines n : ℚ) / (L : ℚ)))
    ∧ (∀ (tbl : List (K × Nat)) (T : ℚ) (lines : List K) (n : K),
        lookupA tbl n = none → isLC tbl T lines n = false)
    ∧ parse_dust_output ["readA 2 4".toList] [("readA".toList, 10)]
        (mkRat 4 10) = .ok 0
    ∧ parse_dust_output ["readA 2 4".toList] [("readA".toList, 10)]
        (mkRat 2 10) = .ok 1 := by
  refine ⟨parse_dust_output_wf, ?_, ?_, ?_, by decide, by decide⟩
  · intro l a b c s e hsp hb hc
    exact tripleOf_eq_some hsp hb hc
  · intro tbl T lines n L hL hL0
    rw [isLC, hL]
    simp only [if_neg hL0, decide_eq_true_eq]
  · intro tbl T lines n hL
    rw [isLC, hL]

/-- Witness for claim C5: its report characterization applied to the
single-line report `readA 2 4` at threshold 0.2. -/
theorem c5_mask_merge_witness :
    parse_dust_output ["readA 2 4".toList] [("readA".toList, 10)] (mkRat 2 10)
      = .ok ((((triplesOf ["readA 2 4".toList]).map Prod.fst).toFinset.filter
          (fun n => isLC [("readA".toList, 10)] (mkRat 2 10)
            ["readA 2 4".toList] n = true)).card) :=
  c5_mask_merge.1 ["readA 2 4".toList] [("readA".toList, 10)] (mkRat 2 10)
    (by decide)

/-- Claim C6: the threshold comparison is strict on both sides of the
pipeline.  A motif's vote count rises on a read exactly when its
within-read proportion is strictly greater than `T` (for a nonnegative
threshold; a proportion equal to `T` adds no vote, as the two concrete
`ATAT` evaluations show: `AT` has proportion `2/3`, a hit at `T = 1/2`
but not at `T = 2/3`), and a read with a recorded positive length is
classified low-complexity exactly when its masked proportion is strictly
greater than the same `T` — never when it equals `T`. -/
theorem c6_strict_threshold :
    (∀ (s : K) (T : ℚ) (mc : List (K × Nat)) (m : K), 0 ≤ T →
      (m.length = 2 ∨ m.length = 3) →
      lookupD (voteUpdate mc s T) m
        = lookupD mc m + (if T < windowProp s m then 1 else 0))
    ∧ (∀ (tbl : List (K × Nat)) (T : ℚ) (lines : List K) (n : K) (L : Nat),
        lookupA tbl n = some L → L ≠ 0 →
        (isLC tbl T lines n = true ↔ T < (maskedOf lines n : ℚ) / (L : ℚ)))
    ∧ (∀ (tbl : List (K × Nat)) (T : ℚ) (lines : List K) (n : K) (L : Nat),
        lookupA tbl n = some L → L ≠ 0 →
        (maskedOf lines n : ℚ) / (L : ℚ) = T → isLC tbl T lines n = false)
    ∧ lookupD (voteUpdate [] "ATAT".toList (mkRat 2 3)) "AT".toList = 0
    ∧ lookupD (voteUpdate [] "ATAT".toList (mkRat 1 2)) "AT".toList = 1 := by
  have hisLC : ∀ (tbl : List (K × Nat)) (T : ℚ) (lines : List K) (n : K)
      (L : Nat), lookupA tbl n = some L → L ≠ 0 →
      (isLC tbl T lines n = true ↔ T < (maskedOf lines n : ℚ) / (L : ℚ)) := by
    intro tbl T lines n L hL hL0
    rw [isLC, hL]
    simp only [if_neg hL0, decide_eq_true_eq]
  refine ⟨?_, hisLC, ?_, by decide, by decide⟩
  · intro s T mc m hT hm
    rw [lookupD_voteUpdate]
    by_cases hw : 0 < windowCount s m
    · have hkeym : m ∈ (motif_frequencies s).map Prod.fst := by
        have hiff := lookupD_pos_iff (freqInv_motif_frequencies s).2.1 m
        rw [lookupD_motif_frequencies hm] at hiff
        exact hiff.mp hw
      obtain ⟨q, hq, hq1⟩ := List.mem_map.mp hkeym
      have hq2 : q.2 = windowCount s m := by
        rw [mem_motif_frequencies_value hq, hq1]
      have hprop : proportion s q = windowProp s m := by
        rw [proportion_eq_div, windowProp, hq1, hq2]
      by_cases hT2 : T < windowProp s m
      · have hany : ((motif_frequencies s).any
            (fun p => p.1 == m && decide (T < proportion s p))) = true := by
          rw [List.any_eq_true]
          refine ⟨q, hq, ?_⟩
          rw [beq_eq_decide, hq1, hprop]
          simp [hT2]
        rw [hany, if_pos hT2]
        simp
      · have hany : ((motif_frequencies s).any
            (fun p => p.1 == m && decide (T < proportion s p))) = false := by
          rw [List.any_eq_false]
          intro p hp
          by_cases hpm : p.1 = m
          · have hp2 : p.2 = windowCount s m := by
              rw [mem_motif_frequencies_value hp, hpm]
            have hpw : proportion s p = windowProp s m := by
              rw [proportion_eq_div, windowProp, hpm, hp2]
            rw [beq_eq_decide, hpw, decide_eq_false hT2, Bool.and_false]
            simp
          · rw [beq_eq_decide, decide_eq_false hpm, Bool.false_and]
            simp
        rw [hany, if_neg hT2]
        simp
    · have hnotkey : m ∉ (motif_frequencies s).map Prod.fst := by
        have hiff := lookupD_pos_iff (freqInv_motif_frequencies s).2.1 m
        rw [lookupD_motif_frequencies hm] at hiff
        intro hc
        exact hw (hiff.mpr hc)
      have hany := any_eq_false_keys hnotkey
        (fun p => decide (T < proportion s p))
      have hwp : windowProp s m = 0 := by
        have h0 : windowCount s m = 0 := Nat.eq_zero_of_not_pos hw
        rw [windowProp]
        by_cases h : m.length = 2 <;> simp [h, h0]
      rw [hany, hwp, if_neg (not_lt.mpr hT)]
      simp
  · intro tbl T lines n L hL hL0 heq
    have hiff := hisLC tbl T lines n L hL hL0
    by_cases hc : isLC tbl T lines n = true
    · exact absurd (heq ▸ hiff.mp hc) (lt_irrefl T)
    · exact Bool.eq_false_iff.mpr hc

/-- Witness for claim C6: the vote-increment characterization applied to
the read `ATAT` and motif `AT` at threshold `2/3` (equal to the
proportion, hence no vote). -/
theorem c6_strict_threshold_witness :
    lookupD (voteUpdate [] "ATAT".toList (mkRat 2 3)) "AT".toList
      = lookupD [] "AT".toList
        + (if (mkRat 2 3) < windowProp "ATAT".toList "AT".toList
            then 1 else 0) :=
  c6_strict_threshold.1 "ATAT".toList (mkRat 2 3) [] "AT".toList (by decide)
    (by decide)

/-- Claim C7: a masking-report line that does not split into exactly three
whitespace-separated tokens is skipped without error (in particular the
2-token line `readA 2`, which leaves the run's result unchanged), whereas
a 3-token line whose start or end token is not an integer aborts with a
fatal parse error (`Invalid start position` / `Invalid end position`, as
on the concrete line `readA x 3`). -/
theorem c7_report_line_arity :
    (∀ (l : K) (rest : List K) (mb : List (K × Nat)),
      (splitWs l).length ≠ 3 →
      collectMasked (l :: rest) mb = collectMasked rest mb)
    ∧ (∀ (l : K) (rest : List K) (mb : List (K × Nat)) (a b c : K),
        splitWs l = [a, b, c] → parseUsize b = none →
        collectMasked (l :: rest) mb
          = .error (.panic "Invalid start position"))
    ∧ (∀ (l : K) (rest : List K) (mb : List (K × Nat)) (a b c : K) (s : Nat),
        splitWs l = [a, b, c] → parseUsize b = some s → parseUsize c = none →
        collectMasked (l :: rest) mb
          = .error (.panic "Invalid end position"))
    ∧ parse_dust_output ["readA 2".toList] [("readA".toList, 10)]
        (mkRat 1 2) = .ok 0
    ∧ parse_dust_output ["readA x 3".toList] [] (mkRat 1 2)
        = .error (.panic "Invalid start position") :=
  ⟨fun _ rest mb h => collectMasked_not3 h rest mb,
   fun _ rest mb _ _ _ hsp hb => collectMasked_start_panic hsp hb rest mb,
   fun _ rest mb _ _ _ _ hsp hb hc => collectMasked_end_panic hsp hb hc rest mb,
   by decide, by decide⟩

/-- Witness for claim C7: the 2-token line `readA 2` is skipped. -/
theorem c7_report_line_arity_witness :
    collectMasked ["readA 2".toList] [] = collectMasked [] [] :=
  c7_report_line_arity.1 "readA 2".toList [] [] (by decide)

/-- Claim C8: one read adds at most one vote per motif (the per-read
frequency map has distinct keys, so the vote loop touches each motif at
most once), and therefore after any run of the record reader every
motif's vote count is at most the number of reads processed. -/
theorem c8_votes_le_reads :
    (∀ (mc : List (K × Nat)) (s : K) (T : ℚ) (m : K),
      lookupD (voteUpdate mc s T) m ≤ lookupD mc m + 1)
    ∧ (∀ (lines : List K) (max_reads : Nat) (T : ℚ) (skip_reads : Nat)
        (st : PState),
        process_reads_and_write_fasta lines max_reads T skip_reads = .ok st →
        ∀ m, lookupD st.motif_counts m ≤ st.total_reads) := by
  constructor
  · exact lookupD_voteUpdate_le
  · intro lines maxr T skip st hrun m
    rw [process_reads_and_write_fasta] at hrun
    refine processLoop_votes_le_aux maxr T (lines.drop (4 * skip)).length
      _ le_rfl _ st hrun ?_ m
    intro k
    simp [lookupD, lookupA]

/-- Witness for claim C8: the invariant evaluated after a run on a single
`ATAT` read, where `AT` holds one vote out of one read. -/
theorem c8_votes_le_reads_witness :
    lookupD (PState.mk [("AT".toList, 1)] 1 [("r1".toList, 4)]
        [['>', 'r', '1'], "ATAT".toList]).motif_counts "AT".toList
      ≤ (PState.mk [("AT".toList, 1)] 1 [("r1".toList, 4)]
        [['>', 'r', '1'], "ATAT".toList]).total_reads :=
  c8_votes_le_reads.2 (["@r1", "ATAT", "+", "IIII"].map String.toList) 100000
    (mkRat 1 2) 0 _ (by decide) "AT".toList

/-- Claim C9: `&header[1..]` is a byte slice, so a record whose sequence
is long enough to be processed panics when its header line is empty (byte
index 1 out of bounds) or starts with a multi-byte character (not a char
boundary); conversely a run over lines that all start with a single-byte
character never panics. -/
theorem c9_header_slice_panic :
    (∀ (max_reads : Nat) (T : ℚ) (s : K) (rest : List K) (st : PState),
      st.total_reads < max_reads → 2 ≤ s.length →
      processLoop max_reads T ([] :: s :: rest) st
        = .error (.panic "byte index 1 is out of bounds"))
    ∧ (∀ (max_reads : Nat) (T : ℚ) (c : Char) (t s : K) (rest : List K)
        (st : PState),
        st.total_reads < max_reads → 2 ≤ s.length → c.utf8Size ≠ 1 →
        processLoop max_reads T ((c :: t) :: s :: rest) st
          = .error (.panic "byte index 1 is not a char boundary"))
    ∧ (∀ (lines : List K) (max_reads : Nat) (T : ℚ) (skip_reads : Nat),
        (∀ l ∈ lines, ∃ c t, l = c :: t ∧ c.utf8Size = 1) →
        ∃ st, process_reads_and_write_fasta lines max_reads T skip_reads
          = .ok st) := by
  refine ⟨?_, ?_, ?_⟩
  · intro maxr T s rest st hmax hs
    exact processLoop_empty_header maxr T s rest st hmax hs
  · intro maxr T c t s rest st hmax hs hc
    exact processLoop_multibyte_header maxr T c t s rest st hmax hs hc
  · intro lines maxr T skip hall
    rw [process_reads_and_write_fasta]
    exact processLoop_total_aux maxr T (lines.drop (4 * skip)).length _ le_rfl
      (fun l hl => hall l (List.mem_of_mem_drop hl)) _

/-- Witness for claim C9: an empty header line followed by the 2-character
sequence `AC` panics. -/
theorem c9_header_slice_panic_witness :
    processLoop 100000 (mkRat 1 2) [[], "AC".toList] (PState.mk [] 0 [] [])
      = .error (.panic "byte index 1 is out of bounds") :=
  c9_header_slice_panic.1 100000 (mkRat 1 2) "AC".toList [] (PState.mk [] 0 [] [])
    (by decide) (by decide)

/-- Claim C10: `end - start + 1` is computed in unsigned arithmetic, so a
3-token report line with integer offsets and `end < start` makes the
subtraction underflow and the run panic (concretely on `readA 5 3`);
when every 3-token line has integer offsets with `start ≤ end`, the
accumulation pass always completes. -/
theorem c10_interval_underflow :
    (∀ (l : K) (rest : List K) (mb : List (K × Nat)) (a b c : K) (s e : Nat),
      splitWs l = [a, b, c] → parseUsize b = some s → parseUsize c = some e →
      e < s →
      collectMasked (l :: rest) mb
        = .error (.panic "attempt to subtract with overflow"))
    ∧ (∀ (lines : List K) (mb : List (K × Nat)),
        (∀ l ∈ lines, wfLine l = true) →
        ∃ r, collectMasked lines mb = .ok r)
    ∧ parse_dust_output ["readA 5 3".toList] [] (mkRat 1 2)
        = .error (.panic "attempt to subtract with overflow") :=
  ⟨fun _ rest mb _ _ _ _ _ hsp hb hc hlt =>
      collectMasked_underflow hsp hb hc hlt rest mb,
   fun lines mb hwf => ⟨_, collectMasked_wf lines mb hwf⟩,
   by decide⟩

/-- Witness for claim C10: the report line `readA 5 3` (end before start)
panics. -/
theorem c10_interval_underflow_witness :
    collectMasked ["readA 5 3".toList] []
      = .error (.panic "attempt to subtract with overflow") :=
  c10_interval_underflow.1 "readA 5 3".toList [] [] "readA".toList
    "5".toList "3".toList 5 3 (by decide) (by decide) (by decide) (by decide)

end FreqMotif
